import Mathlib

/-!
Verification of the whodis presence-tracking pipeline (src/whodis.py).

The Python source is shallowly embedded: Redis streams become an explicit
`Store` (a map from stream key to an append-only list of events plus the
`mac_addrs` known-device set), dictionaries become structures with
`Option` fields (a missing key raises, i.e. yields `none`), and Python
string/arithmetic operations become their Lean counterparts (`ℚ` stands in
for floats, whose values here are exact halves and small integers).
-/

/-! ## Definitions (shallow embedding of src/whodis.py) -/

/-- Python string slicing `s[:n]` (by code points). -/
def strTake (s : String) (n : Nat) : String := ⟨s.data.take n⟩

/-- Source `truncate(s, max_len=20)` from whodis.py: return `s` unchanged when it
fits, otherwise the first `max(0, max_len-3)` characters followed by an
ellipsis marker. -/
def truncate (s : String) (max_len : Int := 20) : String :=
  if (s.length : Int) ≤ max_len then s
  else strTake s (max 0 (max_len - 3)).toNat ++ "..."

/-- One entry of a Redis stream: a store-assigned id `(ms_timestamp, seq)`
and the flattened field/value list that `XADD` was given. -/
structure Event where
  id : Nat × Nat
  fields : List String
deriving DecidableEq, Repr

/-- The mutable Redis state the program touches: every stream keyed by
name (`mac_ts` for the aggregate log, `mac_ts_<mac>` per entity), the
`mac_addrs` known-device set, and a clock used for monotonic id
assignment. -/
structure Store where
  logs : String → List Event
  known : List String
  clock : Nat

/-- Command `XADD stream * field value ...`: append one event with a
store-assigned monotonic id to the given stream. -/
def xadd (st : Store) (key : String) (fields : List String) : Store :=
  { logs := fun k => if k = key then st.logs k ++ [⟨(st.clock, 0), fields⟩] else st.logs k
    known := st.known
    clock := st.clock + 1 }

/-- The flattened field lists of a stream's events, in log order. -/
def fieldsOf (st : Store) (key : String) : List (List String) :=
  (st.logs key).map Event.fields

/-- One scan result dictionary `{mac, ip, hw}` from the external ARP
scanner; a field is `none` when the key is absent (so that accessing it
raises `KeyError`, modelled as batch failure). -/
structure ScanResult where
  mac : Option String
  ip : Option String
  hw : Option String
deriving DecidableEq, Repr

/-- The loop body of `Whodis.push_update`: walk the scan batch in input
order carrying the `seen_macs` set, and produce the buffered per-entity
`XADD` commands `(stream_key, fields)`, the flattened aggregate `kvs`
pairs, and the final `seen_macs`.  Returns `none` when a dictionary
access raises (`KeyError`), which aborts the whole call before the
pipeline executes. -/
def processScan (ignore : List String) (seen : List String) :
    List ScanResult → Option (List (String × List String) × List String × List String)
  | [] => some ([], [], seen)
  | r :: rest =>
    match r.mac with
    | none => none
    | some m =>
      if m ∈ seen ∨ m ∈ ignore then
        processScan ignore seen rest
      else
        match r.hw, r.ip with
        | some h, some i =>
          (processScan ignore (m :: seen) rest).map fun out =>
            (("mac_ts_" ++ m, ["ip", i, "hw", truncate h 15]) :: out.1,
             m :: truncate h 15 :: out.2.1,
             out.2.2)
        | _, _ => none

/-- Execute the buffered per-entity `XADD` commands in order. -/
def applyCmds (st : Store) (cmds : List (String × List String)) : Store :=
  cmds.foldl (fun s c => xadd s c.1 c.2) st

/-- The pipeline execution at the end of `push_update`: the buffered
per-entity appends, then the single aggregate `XADD` to `mac_ts`, then
the `SADD` of the seen macs to `mac_addrs`. -/
def finalState (st : Store) (out : List (String × List String) × List String × List String) :
    Store :=
  let st1 := applyCmds st out.1
  let st2 := xadd st1 "mac_ts" out.2.1
  { st2 with known := out.2.2 ++ st2.known }

/-- Source `Whodis.push_update(scan)`: snapshot of the ignore set is the
`ignore` argument; process the batch, then execute the pipeline.  `none`
models an uncaught `KeyError`, in which case the pipeline never executes
and the store is unchanged. -/
def pushUpdate (ignore : List String) (st : Store) (scan : List ScanResult) : Option Store :=
  (processScan ignore [] scan).map (finalState st)

/-- The flattened `(hardware_address, truncated_vendor)` pairs of the
accepted (non-skipped) results of a batch, in processing order — the
spec's description of the aggregate event's fields. -/
def acceptedPairs (ignore : List String) (seen : List String) : List ScanResult → List String
  | [] => []
  | r :: rest =>
    match r.mac, r.hw with
    | some m, some h =>
      if m ∈ seen ∨ m ∈ ignore then acceptedPairs ignore seen rest
      else m :: truncate h 15 :: acceptedPairs ignore (m :: seen) rest
    | _, _ => acceptedPairs ignore seen rest

/-- The empty store: no streams, no known devices. -/
def st0 : Store := ⟨fun _ => [], [], 0⟩

/-- A batch with the same hardware address twice (different ip/vendor). -/
def scanDup : List ScanResult :=
  [⟨some "aa", some "1.1.1.1", some "VendorNameThatIsVeryLong"⟩,
   ⟨some "aa", some "2.2.2.2", some "Other"⟩]

/-- A batch whose first record lacks the hardware-address key. -/
def scanBad : List ScanResult :=
  [⟨none, some "9.9.9.9", some "X"⟩,
   ⟨some "aa:aa", some "1.1.1.1", some "Y"⟩]

/-- A batch whose single mac exactly equals a stored (lower-cased) ignore
entry. -/
def scanIgn : List ScanResult := [⟨some "aa:bb", some "10.0.0.2", some "Z"⟩]

/-- Source `gen_dateranges(latest, step, count)` from whodis.py: walk backward
from `latest`, yielding `(window_start, window_stop)` unix-timestamp
pairs `step` seconds wide, restarting each next window one second before
the previous stop (arrow `shift` on timestamps is integer addition). -/
def gen_dateranges (latest step : Int) (count : Nat) : List (Int × Int) :=
  match count with
  | 0 => []
  | n + 1 => (latest, latest - step) :: gen_dateranges (latest - step - 1) step n

/-- Python `int(...)` on a rational value: truncation toward zero. -/
def pyInt (q : ℚ) : Int := if 0 ≤ q then ⌊q⌋ else -⌊-q⌋

/-- Expression `int(len(cell[1])/2)` — the device count derived from a cell's
flattened field list (Python `/` is exact division, modelled in ℚ). -/
def deviceCount (cell : Event) : Int := pyInt ((cell.fields.length : ℚ) / 2)

/-- Source `cell_class(cell)` from whodis.py: five-tier intensity bucket from
`len(cell[1])/2` (Python float division, modelled in ℚ). -/
def cell_class (cell : Event) : String :=
  let length : ℚ := (cell.fields.length : ℚ) / 2
  if length = 0 then "grad0"
  else if length < 6 then "grad1"
  else if length < 8 then "grad2"
  else if length < 12 then "grad3"
  else "grad4"

/-- Is this character a (upper-case) hexadecimal digit? -/
def isHexChar (c : Char) : Bool :=
  ('0' ≤ c && c ≤ '9') || ('A' ≤ c && c ≤ 'F')

/-- One upper-case hex digit, as produced by Python `%X` formatting. -/
def hexDigitU (n : Nat) : Char :=
  if n < 10 then Char.ofNat ('0'.toNat + n) else Char.ofNat ('A'.toNat + (n - 10))

/-- The upper-case hex digits of `n`, most significant first (empty for
0, as in the digit-accumulation of `%X` before padding). -/
def hexDigits (n : Nat) : List Char :=
  if h : n = 0 then []
  else hexDigits (n / 16) ++ [hexDigitU (n % 16)]
decreasing_by exact Nat.div_lt_self (Nat.pos_of_ne_zero h) (by norm_num)

/-- Python `"%0.2X" % n` for `n ≥ 0`: hex digits zero-padded to width
at least 2. -/
def padHex2 (n : Nat) : String :=
  ⟨List.replicate (2 - (hexDigits n).length) '0' ++ hexDigits n⟩

/-- Python `"%0.2X" % i`, signs included (a negative value renders with
a leading minus, the sign counting toward the width). -/
def fmtHex02 (i : Int) : String :=
  if i < 0 then "-" ++ ⟨hexDigits i.natAbs⟩ else padHex2 i.toNat

/-- Source `rgb_to_web_hex(r, g, b, a=None)` from whodis.py: RGB(A) values in
the `[0,1]` interval to a web HEX string (the alpha channel is accepted
and ignored). -/
def rgb_to_web_hex (r g b : ℚ) (_a : Option ℚ := none) : String :=
  "#" ++ fmtHex02 (pyInt (r * 255)) ++ fmtHex02 (pyInt (g * 255)) ++ fmtHex02 (pyInt (b * 255))

/-- Source `colourmap(point, range_min=0, range_max=256)` from whodis.py,
parameterised by the external 256-entry colour table (matplotlib
`summer_r`, RGB components in `[0,1]`): position the device count on the
table and convert the looked-up colour to web hex. -/
def colourmap (colours : Nat → ℚ × ℚ × ℚ) (point : Event)
    (range_min : ℚ := 0) (range_max : ℚ := 256) : String :=
  let step := (range_max - range_min) / 256
  let map_position := pyInt ((point.fields.length : ℚ) / 2 / step)
  rgb_to_web_hex (colours (map_position % 256).toNat).1
    (colours (map_position % 256).toNat).2.1
    (colours (map_position % 256).toNat).2.2

/-- The colour table used by concrete witnesses: a constant black table. -/
def colours0 : Nat → ℚ × ℚ × ℚ := fun _ => (0, 0, 0)

/-- An aggregate cell with one device (two flattened fields). -/
def cell0 : Event := ⟨(0, 0), ["aa:bb", "Vendor"]⟩

/-- Modelled from the spec: the external arrow library's `.humanize()`
(not part of this repository) — "a human-readable relative-age string
derived from the earliest event timestamp in the window (e.g. \"3 hours
ago\")", relative to the wall-clock time `now` of the invocation.
Hour-granularity buckets. -/
def humanize (now ts : ℚ) : String :=
  let hours := ⌊(now - ts) / 3600⌋
  if hours ≤ 0 then "just now"
  else if hours = 1 then "an hour ago"
  else toString hours ++ " hours ago"

/-- Source `humanise_cell(cell)` from whodis.py: take the millisecond part of
the cell's stream id, convert to seconds and humanize (relative to the
invocation time `now`, which arrow reads from the wall clock). -/
def humanise_cell (now : ℚ) (cell : Event) : String :=
  humanize now ((cell.id.1 : ℚ) / 1000)

/-- Source `tooltip_text(cell)` from whodis.py. -/
def tooltip_text (now : ℚ) (cell : Event) : String :=
  humanise_cell now cell ++ " : <strong>" ++ toString (deviceCount cell) ++
    " devices present</strong>"

/-- Source `UnstableRedis.xrange(stream, start, stop)` with millisecond
timestamp bounds, inclusive (the default `'-'`/`'+'` bounds cover every
event). -/
def xrangeMs (st : Store) (key : String) (lo hi : Int) : List Event :=
  (st.logs key).filter fun e => decide (lo ≤ (e.id.1 : Int) ∧ (e.id.1 : Int) ≤ hi)

/-- The record the read path derives for one aggregate cell: intensity
class, colour, tooltip. -/
def windowRecord (colours : Nat → ℚ × ℚ × ℚ) (now : ℚ) (cell : Event) :
    String × String × String :=
  (cell_class cell, colourmap colours cell, tooltip_text now cell)

/-- The aggregation read path as `whodis_home` (whodis.py:312-333)
actually executes it: `gen_dateranges` computes the requested window
bounds and the route then discards them — the window-bounded `xrange`
call is commented out and the FULL aggregate log is read
(`r.xrange('mac_ts', '-', '+')`) — and each cell is rendered through
`cell_class` / `colourmap` / `tooltip_text`.  Performs no writes. -/
def windowingRead (colours : Nat → ℚ × ℚ × ℚ) (now : ℚ) (st : Store)
    (latest step : Int) (count : Nat) : List (String × String × String) :=
  let _ranges := gen_dateranges latest step count
  (st.logs "mac_ts").map (windowRecord colours now)

/-- An aggregate cell at ms-timestamp 0 with one device. -/
def cellA : Event := ⟨(0, 0), ["aa:bb", "V"]⟩

/-- A store whose aggregate log holds just `cellA`. -/
def stC : Store :=
  ⟨fun k => if k = "mac_ts" then [cellA] else [], [], 1⟩

/-- Source `UnstableRedis.xread`: unconditionally raises `NotImplementedError`,
touching no state. -/
def xread (_st : Store) : Except String (Store × List Event) :=
  Except.error "NotImplementedError"

/-- Source `UnstableRedis.xgroup`: unconditionally raises `NotImplementedError`. -/
def xgroup (_st : Store) : Except String Store :=
  Except.error "NotImplementedError"

/-- Source `UnstableRedis.xreadgroup`: unconditionally raises
`NotImplementedError`. -/
def xreadgroup (_st : Store) : Except String (Store × List Event) :=
  Except.error "NotImplementedError"

/-- Source `UnstableRedis.xack`: unconditionally raises `NotImplementedError`. -/
def xack (_st : Store) : Except String (Store × Nat) :=
  Except.error "NotImplementedError"

/-- Source `Whodis.load_configuration`: unconditionally raises
`NotImplementedError`. -/
def load_configuration (_st : Store) : Except String Store :=
  Except.error "NotImplementedError"

-- Basic sanity examples (concrete evaluation of the embedding).
example : truncate "VendorNameThatIsVeryLong" 15 = "VendorNameTh..." := by decide
example : truncate "short" 15 = "short" := by decide

/-! ## Theorems -/

theorem str_append_left_cancel {p a b : String} (h : p ++ a = p ++ b) : a = b := by
  have hd : p.data ++ a.data = p.data ++ b.data := by
    simpa [String.data_append] using congrArg String.data h
  have hab : a.data = b.data := List.append_cancel_left hd
  cases a
  cases b
  exact congrArg String.mk hab

theorem entity_key_inj {a b : String} (h : "mac_ts_" ++ a = "mac_ts_" ++ b) : a = b :=
  str_append_left_cancel h

theorem agg_key_ne (m : String) : ("mac_ts" : String) ≠ "mac_ts_" ++ m := by
  intro h
  have hl := congrArg String.length h
  rw [String.length_append] at hl
  have h6 : ("mac_ts" : String).length = 6 := rfl
  have h7 : ("mac_ts_" : String).length = 7 := rfl
  rw [h6, h7] at hl
  omega

theorem xadd_logs_eq (st : Store) (key : String) (fields : List String) :
    (xadd st key fields).logs key = st.logs key ++ [⟨(st.clock, 0), fields⟩] := by
  simp [xadd]

theorem xadd_logs_ne (st : Store) (key k : String) (fields : List String) (h : k ≠ key) :
    (xadd st key fields).logs k = st.logs k := by
  simp [xadd, h]

theorem fieldsOf_xadd_eq (st : Store) (key : String) (fields : List String) :
    fieldsOf (xadd st key fields) key = fieldsOf st key ++ [fields] := by
  simp [fieldsOf, xadd]

theorem fieldsOf_xadd_ne (st : Store) (key k : String) (fields : List String) (h : k ≠ key) :
    fieldsOf (xadd st key fields) k = fieldsOf st k := by
  simp [fieldsOf, xadd, h]

/-- Executing the buffered commands appends to stream `k` exactly the
payloads of the commands addressed to `k`, in order. -/
theorem fieldsOf_applyCmds (cmds : List (String × List String)) (st : Store) (k : String) :
    fieldsOf (applyCmds st cmds) k =
      fieldsOf st k ++ (cmds.filter fun c => decide (c.1 = k)).map Prod.snd := by
  induction cmds generalizing st with
  | nil => simp [applyCmds]
  | cons c cmds ih =>
    have hstep : applyCmds st (c :: cmds) = applyCmds (xadd st c.1 c.2) cmds := rfl
    rw [hstep, ih]
    by_cases hk : c.1 = k
    · subst hk
      rw [fieldsOf_xadd_eq]
      simp [List.filter_cons]
    · rw [fieldsOf_xadd_ne _ _ _ _ (Ne.symm hk)]
      simp [List.filter_cons, hk]

theorem applyCmds_logs_of_not_mem (cmds : List (String × List String)) (st : Store)
    (k : String) (h : ∀ c ∈ cmds, c.1 ≠ k) :
    (applyCmds st cmds).logs k = st.logs k := by
  induction cmds generalizing st with
  | nil => rfl
  | cons c cmds ih =>
    have hstep : applyCmds st (c :: cmds) = applyCmds (xadd st c.1 c.2) cmds := rfl
    rw [hstep, ih _ fun c hc => h c (List.mem_cons_of_mem _ hc)]
    exact xadd_logs_ne _ _ _ _ fun he => h c (by simp) he.symm

/-- A well-formed batch (every record has all three fields) never raises. -/
theorem processScan_isSome (ignore : List String) (scan : List ScanResult) :
    ∀ seen : List String,
      (∀ r ∈ scan, r.mac.isSome ∧ r.ip.isSome ∧ r.hw.isSome) →
      ∃ out, processScan ignore seen scan = some out := by
  induction scan with
  | nil => exact fun seen _ => ⟨_, rfl⟩
  | cons r rest ih =>
    intro seen hwf
    obtain ⟨hm, hi, hh⟩ := hwf r (by simp)
    obtain ⟨m, hm⟩ := Option.isSome_iff_exists.mp hm
    obtain ⟨i, hi⟩ := Option.isSome_iff_exists.mp hi
    obtain ⟨h, hh⟩ := Option.isSome_iff_exists.mp hh
    have hwf' : ∀ x ∈ rest, x.mac.isSome ∧ x.ip.isSome ∧ x.hw.isSome :=
      fun x hx => hwf x (List.mem_cons_of_mem _ hx)
    by_cases hskip : m ∈ seen ∨ m ∈ ignore
    · obtain ⟨out, hout⟩ := ih seen hwf'
      exact ⟨out, by simp [processScan, hm, hskip, hout]⟩
    · obtain ⟨out, hout⟩ := ih (m :: seen) hwf'
      exact ⟨(("mac_ts_" ++ m, ["ip", i, "hw", truncate h 15]) :: out.1,
              m :: truncate h 15 :: out.2.1, out.2.2),
             by simp [processScan, hm, hi, hh, hskip, hout]⟩

/-- A mac already seen, or in the ignore snapshot, generates no per-entity
command, and ends up in the final seen set only if it started there. -/
theorem processScan_skipped (ignore : List String) (m : String) (scan : List ScanResult) :
    ∀ (seen : List String) out,
      processScan ignore seen scan = some out →
      (m ∈ seen ∨ m ∈ ignore) →
      (out.1.filter fun c => decide (c.1 = "mac_ts_" ++ m)) = [] ∧
        (m ∈ out.2.2 ↔ m ∈ seen) := by
  induction scan with
  | nil =>
    intro seen out h hm
    simp only [processScan, Option.some.injEq] at h
    subst h
    simp
  | cons r rest ih =>
    intro seen out h hm
    cases hmac : r.mac with
    | none => simp [processScan, hmac] at h
    | some m' =>
      by_cases hskip : m' ∈ seen ∨ m' ∈ ignore
      · simp only [processScan, hmac, if_pos hskip] at h
        exact ih seen out h hm
      · cases hhw : r.hw with
        | none => simp [processScan, hmac, hskip, hhw] at h
        | some hv =>
          cases hip : r.ip with
          | none => simp [processScan, hmac, hskip, hhw, hip] at h
          | some iv =>
            simp only [processScan, hmac, if_neg hskip, hhw, hip,
              Option.map_eq_some'] at h
            obtain ⟨out', hout', rfl⟩ := h
            have hmm' : m ≠ m' := by
              rintro rfl
              exact hskip hm
            have hrec := ih (m' :: seen) out' hout'
              (by rcases hm with hm | hm
                  · exact Or.inl (List.mem_cons_of_mem _ hm)
                  · exact Or.inr hm)
            refine ⟨?_, ?_⟩
            · have hne : ¬ (("mac_ts_" ++ m' : String) = "mac_ts_" ++ m) := by
                intro he
                exact hmm' (entity_key_inj he).symm
              simpa [List.filter_cons, hne] using hrec.1
            · have := hrec.2
              simpa [List.mem_cons, hmm'] using this

/-- First-occurrence-wins: when `m` is neither seen nor ignored, the batch
generates exactly one command for `m`'s stream, carrying the ip and the
truncated vendor of the first record whose mac is `m`. -/
theorem processScan_first (ignore : List String) (m : String) (scan : List ScanResult) :
    ∀ (seen : List String) out r₀,
      processScan ignore seen scan = some out →
      m ∉ seen → m ∉ ignore →
      scan.find? (fun r => decide (r.mac = some m)) = some r₀ →
      ∃ i h, r₀.ip = some i ∧ r₀.hw = some h ∧
        (out.1.filter fun c => decide (c.1 = "mac_ts_" ++ m)) =
          [("mac_ts_" ++ m, ["ip", i, "hw", truncate h 15])] := by
  induction scan with
  | nil =>
    intro seen out r₀ h hseen hig hf
    simp [List.find?] at hf
  | cons r rest ih =>
    intro seen out r₀ h hseen hig hf
    cases hmac : r.mac with
    | none => simp [processScan, hmac] at h
    | some m' =>
      by_cases hm' : m' = m
      · subst hm'
        rw [List.find?_cons_of_pos (p := fun r => decide (r.mac = some m')) (a := r)
          rest (by simp [hmac])] at hf
        have hr₀ : r₀ = r := by
          injection hf with hf
          exact hf.symm
        subst hr₀
        have hskip : ¬ (m' ∈ seen ∨ m' ∈ ignore) := by
          rintro (hc | hc)
          · exact hseen hc
          · exact hig hc
        cases hhw : r₀.hw with
        | none => simp [processScan, hmac, hskip, hhw] at h
        | some hv =>
          cases hip : r₀.ip with
          | none => simp [processScan, hmac, hskip, hhw, hip] at h
          | some iv =>
            simp only [processScan, hmac, if_neg hskip, hhw, hip,
              Option.map_eq_some'] at h
            obtain ⟨out', hout', rfl⟩ := h
            refine ⟨iv, hv, rfl, rfl, ?_⟩
            have htail := (processScan_skipped ignore m' rest (m' :: seen) out' hout'
              (Or.inl (List.mem_cons_self _ _))).1
            simp [List.filter_cons, htail]
      · rw [List.find?_cons_of_neg (p := fun r => decide (r.mac = some m)) (a := r)
          rest (by simp [hmac, hm'])] at hf
        by_cases hskip : m' ∈ seen ∨ m' ∈ ignore
        · simp only [processScan, hmac, if_pos hskip] at h
          exact ih seen out r₀ h hseen hig hf
        · cases hhw : r.hw with
          | none => simp [processScan, hmac, hskip, hhw] at h
          | some hv =>
            cases hip : r.ip with
            | none => simp [processScan, hmac, hskip, hhw, hip] at h
            | some iv =>
              simp only [processScan, hmac, if_neg hskip, hhw, hip,
                Option.map_eq_some'] at h
              obtain ⟨out', hout', rfl⟩ := h
              have hseen' : m ∉ m' :: seen := by
                simp only [List.mem_cons, not_or]
                exact ⟨fun he => hm' he.symm, hseen⟩
              obtain ⟨i, hx, hip₀, hhw₀, hfl⟩ := ih (m' :: seen) out' r₀ hout' hseen' hig hf
              refine ⟨i, hx, hip₀, hhw₀, ?_⟩
              have hne : ¬ (("mac_ts_" ++ m' : String) = "mac_ts_" ++ m) := by
                intro he
                exact hm' (entity_key_inj he)
              simpa [List.filter_cons, hne] using hfl

/-- Every buffered per-entity command goes to a `mac_ts_<mac>` stream. -/
theorem processScan_keys (ignore : List String) (scan : List ScanResult) :
    ∀ (seen : List String) out,
      processScan ignore seen scan = some out →
      ∀ c ∈ out.1, ∃ m, c.1 = "mac_ts_" ++ m := by
  induction scan with
  | nil =>
    intro seen out h
    simp only [processScan, Option.some.injEq] at h
    subst h
    simp
  | cons r rest ih =>
    intro seen out h
    cases hmac : r.mac with
    | none => simp [processScan, hmac] at h
    | some m' =>
      by_cases hskip : m' ∈ seen ∨ m' ∈ ignore
      · simp only [processScan, hmac, if_pos hskip] at h
        exact ih seen out h
      · cases hhw : r.hw with
        | none => simp [processScan, hmac, hskip, hhw] at h
        | some hv =>
          cases hip : r.ip with
          | none => simp [processScan, hmac, hskip, hhw, hip] at h
          | some iv =>
            simp only [processScan, hmac, if_neg hskip, hhw, hip,
              Option.map_eq_some'] at h
            obtain ⟨out', hout', rfl⟩ := h
            intro c hc
            rcases List.mem_cons.mp hc with hc | hc
            · exact ⟨m', by rw [hc]⟩
            · exact ih (m' :: seen) out' hout' c hc

/-- The aggregate `kvs` accumulated by the loop are exactly the flattened
`(hardware_address, truncated_vendor)` pairs of the accepted results, in
processing order. -/
theorem processScan_kvs (ignore : List String) (scan : List ScanResult) :
    ∀ (seen : List String) out,
      processScan ignore seen scan = some out →
      out.2.1 = acceptedPairs ignore seen scan := by
  induction scan with
  | nil =>
    intro seen out h
    simp only [processScan, Option.some.injEq] at h
    subst h
    rfl
  | cons r rest ih =>
    intro seen out h
    cases hmac : r.mac with
    | none => simp [processScan, hmac] at h
    | some m' =>
      cases hhw : r.hw with
      | none =>
        by_cases hskip : m' ∈ seen ∨ m' ∈ ignore
        · simp only [processScan, hmac, if_pos hskip] at h
          rw [ih seen out h]
          simp [acceptedPairs, hmac, hhw]
        · simp [processScan, hmac, hskip, hhw] at h
      | some hv =>
        by_cases hskip : m' ∈ seen ∨ m' ∈ ignore
        · simp only [processScan, hmac, if_pos hskip] at h
          rw [ih seen out h]
          simp [acceptedPairs, hmac, hhw, hskip]
        · cases hip : r.ip with
          | none => simp [processScan, hmac, hskip, hhw, hip] at h
          | some iv =>
            simp only [processScan, hmac, if_neg hskip, hhw, hip,
              Option.map_eq_some'] at h
            obtain ⟨out', hout', rfl⟩ := h
            simp only [acceptedPairs, hmac, hhw, if_neg hskip]
            rw [ih (m' :: seen) out' hout']

theorem applyCmds_known (cmds : List (String × List String)) (st : Store) :
    (applyCmds st cmds).known = st.known := by
  induction cmds generalizing st with
  | nil => rfl
  | cons c cmds ih => exact ih (xadd st c.1 c.2)

theorem finalState_logs_entity (st : Store)
    (out : List (String × List String) × List String × List String) (k : String)
    (hk : k ≠ "mac_ts") :
    (finalState st out).logs k = (applyCmds st out.1).logs k :=
  xadd_logs_ne _ _ _ _ hk

theorem fieldsOf_finalState_entity (st : Store)
    (out : List (String × List String) × List String × List String) (k : String)
    (hk : k ≠ "mac_ts") :
    fieldsOf (finalState st out) k =
      fieldsOf st k ++ (out.1.filter fun c => decide (c.1 = k)).map Prod.snd := by
  have h1 : fieldsOf (finalState st out) k = fieldsOf (applyCmds st out.1) k := by
    unfold fieldsOf
    rw [finalState_logs_entity st out k hk]
  rw [h1, fieldsOf_applyCmds]

theorem fieldsOf_finalState_agg (st : Store)
    (out : List (String × List String) × List String × List String)
    (hkeys : ∀ c ∈ out.1, ∃ m, c.1 = "mac_ts_" ++ m) :
    fieldsOf (finalState st out) "mac_ts" = fieldsOf st "mac_ts" ++ [out.2.1] := by
  have h1 : fieldsOf (finalState st out) "mac_ts" =
      fieldsOf (applyCmds st out.1) "mac_ts" ++ [out.2.1] := by
    show fieldsOf (xadd (applyCmds st out.1) "mac_ts" out.2.1) "mac_ts" = _
    exact fieldsOf_xadd_eq _ _ _
  have h2 : (out.1.filter fun c => decide (c.1 = "mac_ts")) = [] := by
    rw [List.filter_eq_nil_iff]
    intro c hc
    obtain ⟨m, hm⟩ := hkeys c hc
    simp [hm]
    exact (agg_key_ne m).symm
  rw [h1, fieldsOf_applyCmds, h2]
  simp

theorem finalState_known (st : Store)
    (out : List (String × List String) × List String × List String) :
    (finalState st out).known = out.2.2 ++ st.known := by
  show out.2.2 ++ (xadd (applyCmds st out.1) "mac_ts" out.2.1).known = _
  rw [show (xadd (applyCmds st out.1) "mac_ts" out.2.1).known = (applyCmds st out.1).known
        from rfl,
      applyCmds_known]

/-- A record with a missing `mac` key raises before the pipeline runs. -/
theorem processScan_none_of_missing_mac (ignore : List String) (scan : List ScanResult)
    (r : ScanResult) :
    ∀ seen : List String, r ∈ scan → r.mac = none →
      processScan ignore seen scan = none := by
  induction scan with
  | nil =>
    intro seen h
    simp at h
  | cons x rest ih =>
    intro seen hr hmac
    rcases List.mem_cons.mp hr with rfl | hr
    · simp [processScan, hmac]
    · cases hx : x.mac with
      | none => simp [processScan, hx]
      | some m' =>
        by_cases hskip : m' ∈ seen ∨ m' ∈ ignore
        · simp only [processScan, hx, if_pos hskip]
          exact ih seen hr hmac
        · cases hhw : x.hw with
          | none => simp [processScan, hx, hskip, hhw]
          | some hv =>
            cases hip : x.ip with
            | none => simp [processScan, hx, hskip, hhw, hip]
            | some iv =>
              simp only [processScan, hx, if_neg hskip, hhw, hip]
              rw [ih (m' :: seen) hr hmac]
              rfl

/-- C1: for every scan batch and every hardware address appearing more
than once in it (and not in the ignore snapshot), `push_update` writes
exactly one Event to that address's per-entity log, carrying the ip and
the bound-15-truncated vendor of the first occurrence in input order;
later duplicates are dropped. -/
theorem push_update_dedup_first_wins (ignore : List String) (st : Store)
    (scan : List ScanResult) (m : String)
    (hwf : ∀ r ∈ scan, r.mac.isSome ∧ r.ip.isSome ∧ r.hw.isSome)
    (hcnt : 2 ≤ (scan.filter fun r => decide (r.mac = some m)).length)
    (hig : m ∉ ignore) :
    ∃ st' r₀ i h, pushUpdate ignore st scan = some st' ∧
      scan.find? (fun r => decide (r.mac = some m)) = some r₀ ∧
      r₀.ip = some i ∧ r₀.hw = some h ∧
      fieldsOf st' ("mac_ts_" ++ m) =
        fieldsOf st ("mac_ts_" ++ m) ++ [["ip", i, "hw", truncate h 15]] := by
  obtain ⟨out, hout⟩ := processScan_isSome ignore scan [] hwf
  have hex : ∃ r ∈ scan, (fun r => decide (r.mac = some m)) r := by
    have hne : (scan.filter fun r => decide (r.mac = some m)) ≠ [] := by
      intro hnil
      rw [hnil] at hcnt
      simp at hcnt
    obtain ⟨r, hr⟩ := List.exists_mem_of_ne_nil _ hne
    exact ⟨r, (List.mem_filter.mp hr).1, (List.mem_filter.mp hr).2⟩
  obtain ⟨r₀, hf⟩ := Option.isSome_iff_exists.mp (List.find?_isSome.mpr hex)
  obtain ⟨i, h, hip, hhw, hfl⟩ :=
    processScan_first ignore m scan [] out r₀ hout (by simp) hig hf
  refine ⟨finalState st out, r₀, i, h, by simp [pushUpdate, hout], hf, hip, hhw, ?_⟩
  rw [fieldsOf_finalState_entity st out _ (agg_key_ne m).symm, hfl]
  rfl

/-- C1 witness: a concrete duplicate batch, instantiating the theorem. -/
theorem push_update_dedup_first_wins_witness :
    ∃ st' r₀ i h, pushUpdate [] st0 scanDup = some st' ∧
      scanDup.find? (fun r => decide (r.mac = some "aa")) = some r₀ ∧
      r₀.ip = some i ∧ r₀.hw = some h ∧
      fieldsOf st' ("mac_ts_" ++ "aa") =
        fieldsOf st0 ("mac_ts_" ++ "aa") ++ [["ip", i, "hw", truncate h 15]] :=
  push_update_dedup_first_wins [] st0 scanDup "aa" (by decide) (by decide) (by decide)

/-- C2 counterexample: with the ignore set holding the stored lower-cased
entry `aa:bb`, a batch record with mac `AA:BB` is NOT filtered: one Event
is written to its per-entity log and the mac is added to the known set,
so the claimed case-insensitive match fails. -/
theorem push_update_ignore_case_counterexample :
    (pushUpdate ["aa:bb"] st0 [⟨some "AA:BB", some "10.0.0.1", some "SomeVendor"⟩]).map
        (fun s => ((s.logs "mac_ts_AA:BB").length, decide ("AA:BB" ∈ s.known))) =
      some (1, true) := by
  rfl

/-- C2 (amended): ignore matching in `push_update` is case-sensitive
exact string comparison; whenever a batch mac exactly equals an entry of
the ignore snapshot (the stored entries are lower-cased), zero Events are
written to that address's per-entity log and the known-device set is
unchanged for it. -/
theorem push_update_ignored_exact (ignore : List String) (st st' : Store)
    (scan : List ScanResult) (m : String)
    (hig : m ∈ ignore) (h : pushUpdate ignore st scan = some st') :
    st'.logs ("mac_ts_" ++ m) = st.logs ("mac_ts_" ++ m) ∧
      (m ∈ st'.known ↔ m ∈ st.known) := by
  simp only [pushUpdate, Option.map_eq_some'] at h
  obtain ⟨out, hout, rfl⟩ := h
  have hskip := processScan_skipped ignore m scan [] out hout (Or.inr hig)
  constructor
  · rw [finalState_logs_entity st out _ (agg_key_ne m).symm]
    apply applyCmds_logs_of_not_mem
    intro c hc he
    have := List.filter_eq_nil_iff.mp hskip.1 c hc
    simp [he] at this
  · rw [finalState_known]
    have hnotin : m ∉ out.2.2 := by
      intro hmem
      simpa using hskip.2.mp hmem
    simp [List.mem_append, hnotin]

/-- C2 (amended) witness: a concrete exactly-matching ignored mac. -/
theorem push_update_ignored_exact_witness :
    ∃ st', pushUpdate ["aa:bb"] st0 scanIgn = some st' ∧
      (st'.logs ("mac_ts_" ++ "aa:bb") = st0.logs ("mac_ts_" ++ "aa:bb") ∧
        ("aa:bb" ∈ st'.known ↔ "aa:bb" ∈ st0.known)) := by
  obtain ⟨st', hst⟩ : ∃ st', pushUpdate ["aa:bb"] st0 scanIgn = some st' := ⟨_, rfl⟩
  exact ⟨st', hst,
    push_update_ignored_exact ["aa:bb"] st0 st' scanIgn "aa:bb" (by decide) hst⟩

/-- C3: every well-formed invocation of `push_update` appends exactly one
Event to the aggregate log, whose fields are the flattened
`(hardware_address, truncated_vendor)` pairs of the accepted results in
processing order; an all-skipped or empty batch still appends one
aggregate Event with no fields, and the aggregate-log length increases by
exactly 1. -/
theorem push_update_aggregate (ignore : List String) (st : Store) (scan : List ScanResult)
    (hwf : ∀ r ∈ scan, r.mac.isSome ∧ r.ip.isSome ∧ r.hw.isSome) :
    ∃ st', pushUpdate ignore st scan = some st' ∧
      fieldsOf st' "mac_ts" = fieldsOf st "mac_ts" ++ [acceptedPairs ignore [] scan] ∧
      (st'.logs "mac_ts").length = (st.logs "mac_ts").length + 1 := by
  obtain ⟨out, hout⟩ := processScan_isSome ignore scan [] hwf
  have hkeys := processScan_keys ignore scan [] out hout
  have hagg := fieldsOf_finalState_agg st out hkeys
  have hkvs := processScan_kvs ignore scan [] out hout
  refine ⟨finalState st out, by simp [pushUpdate, hout], ?_, ?_⟩
  · rw [hagg, hkvs]
  · have hlen := congrArg List.length hagg
    simpa [fieldsOf] using hlen

/-- C3 witness: the empty batch still gets one aggregate Event with no
fields. -/
theorem push_update_aggregate_witness :
    ∃ st', pushUpdate [] st0 [] = some st' ∧
      fieldsOf st' "mac_ts" = fieldsOf st0 "mac_ts" ++ [acceptedPairs [] [] []] ∧
      (st'.logs "mac_ts").length = (st0.logs "mac_ts").length + 1 :=
  push_update_aggregate [] st0 [] (by decide)

/-- C8 counterexample: a batch holding a malformed record (no hardware
address) followed by a valid record makes the whole `push_update` call
fail — the valid record is NOT processed, contradicting
record-dropped-batch-continues. -/
theorem push_update_malformed_counterexample :
    pushUpdate [] st0 scanBad = none := by
  rfl

/-- C8 (amended): a scan record missing the hardware-address field makes
the whole `push_update` invocation raise (`KeyError`) before any write is
issued; no Events are written for any record of that batch. -/
theorem push_update_malformed (ignore : List String) (st : Store) (scan : List ScanResult)
    (r : ScanResult) (hr : r ∈ scan) (hmac : r.mac = none) :
    pushUpdate ignore st scan = none := by
  simp [pushUpdate, processScan_none_of_missing_mac ignore scan r [] hr hmac]

/-- C8 (amended) witness. -/
theorem push_update_malformed_witness :
    pushUpdate ["ig"] st0 scanBad = none :=
  push_update_malformed ["ig"] st0 scanBad ⟨none, some "9.9.9.9", some "X"⟩
    (by decide) rfl

/-- C4: `truncate(s, 15)` returns `s` unchanged when it has at most 15
characters, and otherwise returns exactly 15 characters: the first 12 of
`s` followed by the ellipsis marker; and `push_update` applies this
bound-15 truncation to the vendor of every accepted result (shown on a
one-record batch). -/
theorem truncate_bound15 (s : String) (st : Store) (m i h : String) :
    (s.length ≤ 15 → truncate s 15 = s) ∧
    (15 < s.length → (truncate s 15).length = 15 ∧ truncate s 15 = strTake s 12 ++ "...") ∧
    (∃ st', pushUpdate [] st [⟨some m, some i, some h⟩] = some st' ∧
      fieldsOf st' ("mac_ts_" ++ m) =
        fieldsOf st ("mac_ts_" ++ m) ++ [["ip", i, "hw", truncate h 15]]) := by
  refine ⟨?_, ?_, ?_⟩
  · intro hle
    rw [truncate, if_pos (by exact_mod_cast hle)]
  · intro hgt
    have hif : truncate s 15 = strTake s 12 ++ "..." := by
      rw [truncate, if_neg (by exact_mod_cast Nat.not_le.mpr hgt)]
      rfl
    refine ⟨?_, hif⟩
    rw [hif, String.length_append]
    have h12 : (strTake s 12).length = min 12 s.length := by
      show (s.data.take 12).length = min 12 s.length
      exact List.length_take 12 s.data
    rw [h12]
    have : ("..." : String).length = 3 := rfl
    omega
  · have hout : processScan [] [] [(⟨some m, some i, some h⟩ : ScanResult)] =
        some ([("mac_ts_" ++ m, ["ip", i, "hw", truncate h 15])],
              [m, truncate h 15], [m]) := by
      simp [processScan]
    refine ⟨finalState st ([("mac_ts_" ++ m, ["ip", i, "hw", truncate h 15])],
              [m, truncate h 15], [m]), by simp [pushUpdate, hout], ?_⟩
    rw [fieldsOf_finalState_entity st _ _ (agg_key_ne m).symm]
    simp [List.filter_cons]

/-- C4 witness at the spec's own example vendor string. -/
theorem truncate_bound15_witness :
    (truncate "VendorNameThatIsVeryLong" 15).length = 15 ∧
      truncate "VendorNameThatIsVeryLong" 15 = strTake "VendorNameThatIsVeryLong" 12 ++ "..." :=
  (truncate_bound15 "VendorNameThatIsVeryLong" st0 "aa:bb" "10.0.0.1" "V").2.1 (by decide)

theorem gen_dateranges_length (s : Int) :
    ∀ (n : Nat) (T : Int), (gen_dateranges T s n).length = n := by
  intro n
  induction n with
  | zero => intro T; rfl
  | succ n ih =>
    intro T
    simp [gen_dateranges, ih]

theorem gen_dateranges_get? (s : Int) :
    ∀ (n : Nat) (T : Int) (i : Nat), i < n →
      (gen_dateranges T s n).get? i = some (T - i * (s + 1), T - i * (s + 1) - s) := by
  intro n
  induction n with
  | zero =>
    intro T i hi
    omega
  | succ n ih =>
    intro T i hi
    cases i with
    | zero => simp [gen_dateranges]
    | succ i =>
      have hstep : (gen_dateranges T s (n + 1)).get? (i + 1) =
          (gen_dateranges (T - s - 1) s n).get? i := rfl
      rw [hstep, ih (T - s - 1) i (by omega)]
      simp only [Option.some.injEq, Prod.mk.injEq]
      constructor <;> (push_cast; ring)

/-- C5: `gen_dateranges(T, s, n)` yields exactly `n`
`(window_start, window_stop)` pairs walking backward from `T`: pair `i`
is `(T - i*(s+1), T - i*(s+1) - s)`, each pair is exactly `s` seconds
wide, consecutive windows leave a 1-second gap and never overlap or
touch, and the first pair's later bound is `T`. -/
theorem gen_dateranges_windows (T s : Int) (n : Nat) (_hs : 0 < s) :
    (gen_dateranges T s n).length = n ∧
    (∀ i : Nat, i < n → (gen_dateranges T s n).get? i =
        some (T - i * (s + 1), T - i * (s + 1) - s)) ∧
    (∀ p ∈ gen_dateranges T s n, p.1 - p.2 = s) ∧
    (∀ (i : Nat) (a b a' b' : Int), (gen_dateranges T s n).get? i = some (a, b) →
        (gen_dateranges T s n).get? (i + 1) = some (a', b') → b - a' = 1 ∧ a' < b) ∧
    (0 < n → (gen_dateranges T s n).get? 0 = some (T, T - s)) := by
  have hlen := gen_dateranges_length s n T
  have hget := gen_dateranges_get? s n T
  refine ⟨hlen, fun i hi => hget i hi, ?_, ?_, ?_⟩
  · intro p hp
    obtain ⟨i, hi⟩ := List.get_of_mem hp
    have hi' : (i : Nat) < n := by
      have := i.isLt
      omega
    have := hget i hi'
    rw [List.get?_eq_get i.isLt] at this
    rw [hi] at this
    injection this with this
    rw [this]
    ring
  · intro i a b a' b' ha ha'
    obtain ⟨hlt', -⟩ := List.get?_eq_some.mp ha'
    rw [hlen] at hlt'
    have hi : i < n := by omega
    rw [hget i hi] at ha
    rw [hget (i + 1) hlt'] at ha'
    simp only [Option.some.injEq, Prod.mk.injEq] at ha ha'
    obtain ⟨ha1, ha2⟩ := ha
    obtain ⟨ha'1, ha'2⟩ := ha'
    have hc : ((i + 1 : Nat) : Int) * (s + 1) = (i : Int) * (s + 1) + (s + 1) := by
      push_cast
      ring
    have h1 : b - a' = 1 := by
      rw [← ha2, ← ha'1, hc]
      ring
    exact ⟨h1, by omega⟩
  · intro hn
    have := hget 0 hn
    simpa using this

/-- C5 witness: 2 hourly windows back from `T = 100000` with `s = 3600`. -/
theorem gen_dateranges_windows_witness :
    (gen_dateranges 100000 3600 2).length = 2 ∧
    (∀ i : Nat, i < 2 → (gen_dateranges 100000 3600 2).get? i =
        some (100000 - (i : Int) * (3600 + 1), 100000 - (i : Int) * (3600 + 1) - 3600)) ∧
    (∀ p ∈ gen_dateranges 100000 3600 2, p.1 - p.2 = 3600) ∧
    (∀ (i : Nat) (a b a' b' : Int), (gen_dateranges 100000 3600 2).get? i = some (a, b) →
        (gen_dateranges 100000 3600 2).get? (i + 1) = some (a', b') → b - a' = 1 ∧ a' < b) ∧
    (0 < 2 → (gen_dateranges 100000 3600 2).get? 0 = some (100000, 100000 - 3600)) :=
  gen_dateranges_windows 100000 3600 2 (by decide)

theorem cell_class_eq_nat (id : Nat × Nat) (fields : List String) (k : Nat)
    (hk : fields.length = 2 * k) :
    cell_class ⟨id, fields⟩ =
      if k = 0 then "grad0" else if k < 6 then "grad1" else if k < 8 then "grad2"
      else if k < 12 then "grad3" else "grad4" := by
  have hq : ((fields.length : ℚ)) / 2 = (k : ℚ) := by
    rw [hk]
    push_cast
    ring
  show (if ((fields.length : ℚ)) / 2 = 0 then "grad0"
    else if ((fields.length : ℚ)) / 2 < 6 then "grad1"
    else if ((fields.length : ℚ)) / 2 < 8 then "grad2"
    else if ((fields.length : ℚ)) / 2 < 12 then "grad3" else "grad4") = _
  rw [hq]
  by_cases h0 : k = 0
  · simp [h0]
  · rw [if_neg (by exact_mod_cast h0), if_neg h0]
    by_cases h6 : k < 6
    · rw [if_pos (by exact_mod_cast h6), if_pos h6]
    · rw [if_neg (by exact_mod_cast h6), if_neg h6]
      by_cases h8 : k < 8
      · rw [if_pos (by exact_mod_cast h8), if_pos h8]
      · rw [if_neg (by exact_mod_cast h8), if_neg h8]
        by_cases h12 : k < 12
        · rw [if_pos (by exact_mod_cast h12), if_pos h12]
        · rw [if_neg (by exact_mod_cast h12), if_neg h12]

/-- C6: for an aggregate cell with an even number of flattened fields,
the derived device count equals half the flat-field count, and
`cell_class` realises exactly the five claimed tiers: 0 → grad0, 1–5 →
grad1, 6–7 → grad2, 8–11 → grad3, ≥ 12 → grad4. -/
theorem cell_class_tiers (id : Nat × Nat) (fields : List String)
    (he : 2 ∣ fields.length) :
    deviceCount ⟨id, fields⟩ = (fields.length / 2 : Nat) ∧
    (fields.length / 2 = 0 → cell_class ⟨id, fields⟩ = "grad0") ∧
    (1 ≤ fields.length / 2 ∧ fields.length / 2 ≤ 5 → cell_class ⟨id, fields⟩ = "grad1") ∧
    (6 ≤ fields.length / 2 ∧ fields.length / 2 ≤ 7 → cell_class ⟨id, fields⟩ = "grad2") ∧
    (8 ≤ fields.length / 2 ∧ fields.length / 2 ≤ 11 → cell_class ⟨id, fields⟩ = "grad3") ∧
    (12 ≤ fields.length / 2 → cell_class ⟨id, fields⟩ = "grad4") := by
  obtain ⟨k, hk⟩ := he
  have hdiv : fields.length / 2 = k := by omega
  have hq : ((fields.length : ℚ)) / 2 = (k : ℚ) := by
    rw [hk]
    push_cast
    ring
  have hclass := cell_class_eq_nat id fields k hk
  refine ⟨?_, ?_, ?_, ?_, ?_, ?_⟩
  · show pyInt ((fields.length : ℚ) / 2) = _
    rw [hq, pyInt, if_pos (by positivity), Int.floor_natCast, hdiv]
  · intro hc
    rw [hclass, if_pos (by omega)]
  · intro hc
    rw [hclass, if_neg (by omega), if_pos (by omega)]
  · intro hc
    rw [hclass, if_neg (by omega), if_neg (by omega), if_pos (by omega)]
  · intro hc
    rw [hclass, if_neg (by omega), if_neg (by omega), if_neg (by omega), if_pos (by omega)]
  · intro hc
    rw [hclass, if_neg (by omega), if_neg (by omega), if_neg (by omega), if_neg (by omega)]

/-- C6 witness: 12 flattened fields (6 devices) classify as grad2. -/
theorem cell_class_tiers_witness :
    deviceCount ⟨(0, 0), List.replicate 12 "x"⟩ = ((List.replicate 12 "x").length / 2 : Nat) ∧
      cell_class ⟨(0, 0), List.replicate 12 "x"⟩ = "grad2" := by
  have h := cell_class_tiers (0, 0) (List.replicate 12 "x") (by decide)
  exact ⟨h.1, h.2.2.2.1 (by decide)⟩

theorem hexDigits_zero : hexDigits 0 = [] := by
  rw [hexDigits]
  rfl

theorem hexDigits_eq (n : Nat) (h : n ≠ 0) :
    hexDigits n = hexDigits (n / 16) ++ [hexDigitU (n % 16)] := by
  rw [hexDigits]
  simp [h]

theorem hexDigits_len_le2 (n : Nat) (hn : n ≤ 255) : (hexDigits n).length ≤ 2 := by
  by_cases h0 : n = 0
  · simp [h0, hexDigits_zero]
  · rw [hexDigits_eq n h0]
    by_cases h16 : n < 16
    · have hq : n / 16 = 0 := Nat.div_eq_of_lt h16
      simp [hq, hexDigits_zero]
    · have h1 : n / 16 ≠ 0 := by omega
      rw [hexDigits_eq _ h1]
      have h2 : n / 16 / 16 = 0 := by omega
      simp [h2, hexDigits_zero]

theorem hexDigitU_hex (k : Nat) (hk : k < 16) : isHexChar (hexDigitU k) := by
  interval_cases k <;> decide

theorem hexDigits_chars (n : Nat) : ∀ c ∈ hexDigits n, isHexChar c := by
  induction n using Nat.strong_induction_on with
  | _ n ih =>
    by_cases h0 : n = 0
    · simp [h0, hexDigits_zero]
    · rw [hexDigits_eq n h0]
      intro c hc
      rcases List.mem_append.mp hc with hc | hc
      · exact ih (n / 16) (Nat.div_lt_self (Nat.pos_of_ne_zero h0) (by norm_num)) c hc
      · simp only [List.mem_singleton] at hc
        rw [hc]
        exact hexDigitU_hex (n % 16) (Nat.mod_lt n (by norm_num))

theorem padHex2_spec (n : Nat) (hn : n ≤ 255) :
    (padHex2 n).length = 2 ∧ ∀ c ∈ (padHex2 n).data, isHexChar c := by
  have hl := hexDigits_len_le2 n hn
  constructor
  · show (List.replicate (2 - (hexDigits n).length) '0' ++ hexDigits n).length = 2
    rw [List.length_append, List.length_replicate]
    omega
  · intro c hc
    rcases List.mem_append.mp hc with hc | hc
    · rw [List.eq_of_mem_replicate hc]
      decide
    · exact hexDigits_chars n c hc

theorem pyInt_bounds (q : ℚ) (h0 : 0 ≤ q) (h255 : q ≤ 255) :
    0 ≤ pyInt q ∧ pyInt q ≤ 255 := by
  rw [pyInt, if_pos h0]
  refine ⟨Int.floor_nonneg.mpr h0, ?_⟩
  calc ⌊q⌋ ≤ ⌊(255 : ℚ)⌋ := Int.floor_le_floor h255
    _ = 255 := by norm_num

theorem fmtHex02_spec (i : Int) (h0 : 0 ≤ i) (h255 : i ≤ 255) :
    (fmtHex02 i).length = 2 ∧ ∀ c ∈ (fmtHex02 i).data, isHexChar c := by
  rw [fmtHex02, if_neg (by omega)]
  exact padHex2_spec i.toNat (by omega)

theorem rgb_to_web_hex_spec (r g b : ℚ)
    (hr : 0 ≤ r ∧ r ≤ 1) (hg : 0 ≤ g ∧ g ≤ 1) (hb : 0 ≤ b ∧ b ≤ 1) :
    ∃ t : String, rgb_to_web_hex r g b = "#" ++ t ∧ t.length = 6 ∧
      ∀ c ∈ t.data, isHexChar c := by
  have hrb : 0 ≤ r * 255 ∧ r * 255 ≤ 255 := by constructor <;> nlinarith [hr.1, hr.2]
  have hgb : 0 ≤ g * 255 ∧ g * 255 ≤ 255 := by constructor <;> nlinarith [hg.1, hg.2]
  have hbb : 0 ≤ b * 255 ∧ b * 255 ≤ 255 := by constructor <;> nlinarith [hb.1, hb.2]
  obtain ⟨hr0, hr255⟩ := pyInt_bounds _ hrb.1 hrb.2
  obtain ⟨hg0, hg255⟩ := pyInt_bounds _ hgb.1 hgb.2
  obtain ⟨hb0, hb255⟩ := pyInt_bounds _ hbb.1 hbb.2
  obtain ⟨hrl, hrc⟩ := fmtHex02_spec _ hr0 hr255
  obtain ⟨hgl, hgc⟩ := fmtHex02_spec _ hg0 hg255
  obtain ⟨hbl, hbc⟩ := fmtHex02_spec _ hb0 hb255
  refine ⟨fmtHex02 (pyInt (r * 255)) ++ (fmtHex02 (pyInt (g * 255)) ++
    fmtHex02 (pyInt (b * 255))), ?_, ?_, ?_⟩
  · show "#" ++ fmtHex02 (pyInt (r * 255)) ++ fmtHex02 (pyInt (g * 255)) ++
      fmtHex02 (pyInt (b * 255)) = _
    rw [String.append_assoc, String.append_assoc]
  · rw [String.length_append, String.length_append, hrl, hgl, hbl]
  · intro c hc
    rw [String.data_append, String.data_append] at hc
    rcases List.mem_append.mp hc with hc | hc
    · exact hrc c hc
    · rcases List.mem_append.mp hc with hc | hc
      · exact hgc c hc
      · exact hbc c hc

/-- Expression `int(float(len(point_fields)/2) / 1)` equals natural halving. -/
theorem pyInt_half_nat (n : Nat) : pyInt ((n : ℚ) / 2) = ((n / 2 : Nat) : Int) := by
  rw [pyInt, if_pos (by positivity)]
  rcases Nat.even_or_odd n with ⟨k, hk⟩ | ⟨k, hk⟩
  · subst hk
    have hq : ((k + k : Nat) : ℚ) / 2 = (k : ℚ) := by
      push_cast
      ring
    rw [hq, Int.floor_natCast]
    have h2 : (k + k) / 2 = k := by omega
    rw [h2]
  · subst hk
    have hq : ((2 * k + 1 : Nat) : ℚ) / 2 = (1 / 2 : ℚ) + (k : Nat) := by
      push_cast
      ring
    rw [hq, Int.floor_add_nat]
    have hhalf : ⌊(1 / 2 : ℚ)⌋ = 0 := by norm_num
    rw [hhalf]
    have h2 : (2 * k + 1) / 2 = k := by omega
    rw [h2]
    omega

/-- C9: with the default range `(0, 256)` the step is 1, so the colour
table position is the device count wrapped modulo 256; for a table with
components in `[0,1]` the result is `'#'` followed by exactly six
hexadecimal digits. -/
theorem colourmap_default_range (colours : Nat → ℚ × ℚ × ℚ) (cell : Event)
    (hbound : ∀ n : Nat, (0 ≤ (colours n).1 ∧ (colours n).1 ≤ 1) ∧
      (0 ≤ (colours n).2.1 ∧ (colours n).2.1 ≤ 1) ∧
      (0 ≤ (colours n).2.2 ∧ (colours n).2.2 ≤ 1)) :
    colourmap colours cell =
      rgb_to_web_hex (colours (cell.fields.length / 2 % 256)).1
        (colours (cell.fields.length / 2 % 256)).2.1
        (colours (cell.fields.length / 2 % 256)).2.2 ∧
    ∃ t : String, colourmap colours cell = "#" ++ t ∧ t.length = 6 ∧
      ∀ c ∈ t.data, isHexChar c := by
  have hstep : ((256 : ℚ) - 0) / 256 = 1 := by norm_num
  have hpos : pyInt ((cell.fields.length : ℚ) / 2 / (((256 : ℚ) - 0) / 256)) =
      ((cell.fields.length / 2 : Nat) : Int) := by
    rw [hstep, div_one, pyInt_half_nat]
  have hidx : ((((cell.fields.length / 2 : Nat) : Int)) % 256).toNat =
      cell.fields.length / 2 % 256 := by omega
  have hmain : colourmap colours cell =
      rgb_to_web_hex (colours (cell.fields.length / 2 % 256)).1
        (colours (cell.fields.length / 2 % 256)).2.1
        (colours (cell.fields.length / 2 % 256)).2.2 := by
    show rgb_to_web_hex
        (colours ((pyInt ((cell.fields.length : ℚ) / 2 / (((256 : ℚ) - 0) / 256)) % 256).toNat)).1
        (colours ((pyInt ((cell.fields.length : ℚ) / 2 / (((256 : ℚ) - 0) / 256)) % 256).toNat)).2.1
        (colours ((pyInt ((cell.fields.length : ℚ) / 2 / (((256 : ℚ) - 0) / 256)) % 256).toNat)).2.2 = _
    rw [hpos, hidx]
  obtain ⟨h1, h2, h3⟩ := hbound (cell.fields.length / 2 % 256)
  refine ⟨hmain, ?_⟩
  rw [hmain]
  exact rgb_to_web_hex_spec _ _ _ h1 h2 h3

/-- C9 witness at a concrete table and cell. -/
theorem colourmap_default_range_witness :
    colourmap colours0 cell0 =
      rgb_to_web_hex (colours0 (cell0.fields.length / 2 % 256)).1
        (colours0 (cell0.fields.length / 2 % 256)).2.1
        (colours0 (cell0.fields.length / 2 % 256)).2.2 ∧
    ∃ t : String, colourmap colours0 cell0 = "#" ++ t ∧ t.length = 6 ∧
      ∀ c ∈ t.data, isHexChar c := by
  have hb : (0 ≤ (0 : ℚ) ∧ (0 : ℚ) ≤ 1) ∧ (0 ≤ (0 : ℚ) ∧ (0 : ℚ) ≤ 1) ∧
      (0 ≤ (0 : ℚ) ∧ (0 : ℚ) ≤ 1) := by decide
  exact colourmap_default_range colours0 cell0 (fun _ => hb)

/-- C7 counterexample: the same closed interval, the same store, no
intervening writes — but run at two different wall-clock instants the
read path yields different records (the relative-age string moves from
"2 hours ago" to "4 hours ago"), so the two runs are not identical. -/
theorem windowing_read_time_counterexample :
    windowingRead colours0 7200 stC 10 10 1 ≠ windowingRead colours0 14400 stC 10 10 1 := by
  intro hcontra
  have e1 : windowingRead colours0 7200 stC 10 10 1 =
      [windowRecord colours0 7200 cellA] := rfl
  have e2 : windowingRead colours0 14400 stC 10 10 1 =
      [windowRecord colours0 14400 cellA] := rfl
  rw [e1, e2] at hcontra
  simp only [List.cons.injEq, and_true, windowRecord, Prod.mk.injEq] at hcontra
  have ht : tooltip_text 7200 cellA = tooltip_text 14400 cellA := hcontra.2.2
  have hd : deviceCount cellA = 1 := by
    show pyInt ((cellA.fields.length : ℚ) / 2) = 1
    rw [pyInt_half_nat]
    rfl
  have h1 : humanise_cell 7200 cellA = "2 hours ago" := by
    show humanize 7200 (((0 : Nat) : ℚ) / 1000) = _
    have hh : ⌊(((7200 : ℚ)) - ((0 : Nat) : ℚ) / 1000) / 3600⌋ = 2 := by norm_num
    simp only [humanize, hh]
    norm_num
    decide
  have h2 : humanise_cell 14400 cellA = "4 hours ago" := by
    show humanize 14400 (((0 : Nat) : ℚ) / 1000) = _
    have hh : ⌊(((14400 : ℚ)) - ((0 : Nat) : ℚ) / 1000) / 3600⌋ = 4 := by norm_num
    simp only [humanize, hh]
    norm_num
    decide
  simp only [tooltip_text] at ht
  rw [h1, h2, hd] at ht
  exact absurd ht (by decide)

/-- C7 (amended): the read path performs no writes and consults only
the aggregate log and the invocation's wall-clock reference time, so two
runs over the same closed interval yield identical window records —
relative-age string and tooltip text included — whenever both runs use
the same reference time and no intervening write changed the aggregate
log (any two stores agreeing on the aggregate log give the same
records).  Runs at different reference times may differ, since the
relative-age and tooltip strings depend on the invocation instant. -/
theorem windowing_read_same_time_deterministic (colours : Nat → ℚ × ℚ × ℚ)
    (now : ℚ) (st₁ st₂ : Store) (latest step : Int) (count : Nat)
    (hagg : st₁.logs "mac_ts" = st₂.logs "mac_ts") :
    windowingRead colours now st₁ latest step count =
      windowingRead colours now st₂ latest step count := by
  unfold windowingRead
  rw [hagg]

/-- C7 (amended) witness: at the same reference time, a second store
agreeing on the aggregate log (here with a different known set and
clock) yields identical records. -/
theorem windowing_read_same_time_witness :
    windowingRead colours0 7200 stC 10 10 1 =
      windowingRead colours0 7200 ⟨stC.logs, ["extra"], 99⟩ 10 10 1 :=
  windowing_read_same_time_deterministic colours0 7200 stC ⟨stC.logs, ["extra"], 99⟩
    10 10 1 rfl

/-- C10: `xread`, `xgroup`, `xreadgroup`, `xack` and
`load_configuration` raise `NotImplementedError` on every input; each is
independent of the store state (reads nothing) and returns no state
(modifies nothing). -/
theorem unimplemented_ops_raise (st st' : Store) :
    (xread st = Except.error "NotImplementedError" ∧ xread st = xread st') ∧
    (xgroup st = Except.error "NotImplementedError" ∧ xgroup st = xgroup st') ∧
    (xreadgroup st = Except.error "NotImplementedError" ∧ xreadgroup st = xreadgroup st') ∧
    (xack st = Except.error "NotImplementedError" ∧ xack st = xack st') ∧
    (load_configuration st = Except.error "NotImplementedError" ∧
      load_configuration st = load_configuration st') :=
  ⟨⟨rfl, rfl⟩, ⟨rfl, rfl⟩, ⟨rfl, rfl⟩, ⟨rfl, rfl⟩, ⟨rfl, rfl⟩⟩
